import Mathlib

/-!
Verification development for the plog structured logging library.

The embedding models Go strings as lists of runes (Lean `Char`), the
per-entry key/value sequence as a list of dynamic values (`Val`), and the
assemble-then-render pipeline of `log` (part_000) composed with the text
renderer of `text.go`.  Styling is disabled throughout: per the external
interface description, with styling disabled every style transform
degrades to the identity, so lipgloss renders are modelled as identity.
A Go panic (out-of-range slice index) is modelled as `none` / `.panicked`;
a panic unwinds `log` before the final sink write, so no bytes are written.
-/

/-- Go strings viewed as sequences of runes. -/
abbrev Str := List Char

/-- Go unicode.IsPrint (external stdlib collaborator).  Exact on the
Latin-1 range: printable ASCII 0x20..0x7E, and 0xA1..0xFF except the soft
hyphen 0xAD.  Code points at or above 0x100 are treated as printable; the
properties verified here only distinguish printability below 0x100. -/
def unicodeIsPrint (c : Char) : Bool :=
  (0x20 ≤ c.toNat && c.toNat ≤ 0x7E) ||
  (0xA1 ≤ c.toNat && c.toNat ≤ 0xFF && c.toNat ≠ 0xAD) ||
  (0x100 ≤ c.toNat)

/-- needsEscaping from text.go: some rune is non-printable or a double
quote. -/
def needsEscaping (str : Str) : Bool :=
  str.any (fun b => !unicodeIsPrint b || b == '"')

/-- The lowerhex digit table of text.go. -/
def lowerhex : Str := "0123456789abcdef".toList

/-- Indexing into the lowerhex table, lowerhex[n]. -/
def hexDigit (n : Nat) : Char := lowerhex.getD n '0'

/-- Go utf8.ValidRune.  Every Lean Char satisfies it by construction. -/
def utf8ValidRune (r : Char) : Bool :=
  r.toNat < 0xD800 || (0xDFFF < r.toNat && r.toNat < 0x110000)

/-- One iteration of the escaping loop body of escapeStringForOutput
(text.go): quote handling, printable passthrough, named control escapes,
two-digit hex escapes below 0x20, and u/U escapes for the remaining
non-printable runes.  The replacement-rune branch of the source is kept
although every Lean Char is a valid rune. -/
def escapeRune (escapeQuotes : Bool) (r : Char) : Str :=
  if escapeQuotes && r == '"' then ['\\', '"']
  else if unicodeIsPrint r then [r]
  else if r == Char.ofNat 0x07 then ['\\', 'a']
  else if r == Char.ofNat 0x08 then ['\\', 'b']
  else if r == Char.ofNat 0x0C then ['\\', 'f']
  else if r == '\n' then ['\\', 'n']
  else if r == Char.ofNat 0x0D then ['\\', 'r']
  else if r == '\t' then ['\\', 't']
  else if r == Char.ofNat 0x0B then ['\\', 'v']
  else if r.toNat < 0x20 then
    ['\\', 'x', hexDigit (r.toNat >>> 4), hexDigit (r.toNat &&& 0xF)]
  else
    let r := if utf8ValidRune r then r else Char.ofNat 0xFFFD
    if r.toNat < 0x10000 then
      ['\\', 'u', hexDigit (r.toNat >>> 12 &&& 0xF), hexDigit (r.toNat >>> 8 &&& 0xF),
        hexDigit (r.toNat >>> 4 &&& 0xF), hexDigit (r.toNat &&& 0xF)]
    else
      ['\\', 'U', hexDigit (r.toNat >>> 28 &&& 0xF), hexDigit (r.toNat >>> 24 &&& 0xF),
        hexDigit (r.toNat >>> 20 &&& 0xF), hexDigit (r.toNat >>> 16 &&& 0xF),
        hexDigit (r.toNat >>> 12 &&& 0xF), hexDigit (r.toNat >>> 8 &&& 0xF),
        hexDigit (r.toNat >>> 4 &&& 0xF), hexDigit (r.toNat &&& 0xF)]

/-- Concatenation of a list of strings (the escape buffer accumulation). -/
def strConcat : List Str → Str
  | [] => []
  | s :: r => s ++ strConcat r

/-- escapeStringForOutput from text.go: identity fast path when no rune
needs escaping, otherwise the rune-by-rune rewrite. -/
def escapeStringForOutput (str : Str) (escapeQuotes : Bool) : Str :=
  if needsEscaping str then strConcat (str.map (escapeRune escapeQuotes))
  else str

/-- isNormal from text.go: runes allowed unquoted, the ASCII subrange
from the hyphen to the tilde. -/
def isNormal (r : Char) : Bool := '-' ≤ r && r ≤ '~'

/-- needsQuoting from text.go: some rune is not normal. -/
def needsQuoting (str : Str) : Bool := str.any (fun r => !isNormal r)

/-- The standard un-escaping of the escape sequences emitted by
escapeStringForOutput, following the Go strconv conventions named by the
specification (named control escapes, backslash, quote, fixed-width x, u
and U hex escapes); this is the claim-side reading function used to state
the round-trip property. -/
def unhex (c : Char) : Option Nat :=
  let v := c.toNat
  if 0x30 ≤ v ∧ v ≤ 0x39 then some (v - 0x30)
  else if 0x61 ≤ v ∧ v ≤ 0x66 then some (v - 0x61 + 10)
  else if 0x41 ≤ v ∧ v ≤ 0x46 then some (v - 0x41 + 10)
  else none

mutual

/-- Un-escaping, inverse reading of the escape output (see unhex): a
backslash starts an escape sequence read by unescapeSeq, every other rune
stands for itself. -/
def unescape : Str → Option Str
  | [] => some []
  | c :: t => if c = '\\' then unescapeSeq t else (unescape t).map (c :: ·)

/-- Reading of one escape sequence after the backslash (see unescape). -/
def unescapeSeq : Str → Option Str
  | 'a' :: r => (unescape r).map (Char.ofNat 0x07 :: ·)
  | 'b' :: r => (unescape r).map (Char.ofNat 0x08 :: ·)
  | 'f' :: r => (unescape r).map (Char.ofNat 0x0C :: ·)
  | 'n' :: r => (unescape r).map ('\n' :: ·)
  | 'r' :: r => (unescape r).map (Char.ofNat 0x0D :: ·)
  | 't' :: r => (unescape r).map ('\t' :: ·)
  | 'v' :: r => (unescape r).map (Char.ofNat 0x0B :: ·)
  | '\\' :: r => (unescape r).map ('\\' :: ·)
  | '"' :: r => (unescape r).map ('"' :: ·)
  | 'x' :: h1 :: h2 :: r =>
    match unhex h1, unhex h2 with
    | some a, some b => (unescape r).map (Char.ofNat (16 * a + b) :: ·)
    | _, _ => none
  | 'u' :: h1 :: h2 :: h3 :: h4 :: r =>
    match unhex h1, unhex h2, unhex h3, unhex h4 with
    | some a, some b, some c, some d =>
      (unescape r).map (Char.ofNat (((a * 16 + b) * 16 + c) * 16 + d) :: ·)
    | _, _, _, _ => none
  | 'U' :: h1 :: h2 :: h3 :: h4 :: h5 :: h6 :: h7 :: h8 :: r =>
    match unhex h1, unhex h2, unhex h3, unhex h4, unhex h5, unhex h6, unhex h7, unhex h8 with
    | some a, some b, some c, some d, some e, some f, some g, some h =>
      (unescape r).map
        (Char.ofNat (((((((a * 16 + b) * 16 + c) * 16 + d) * 16 + e) * 16 + f) * 16 + g) * 16 + h) :: ·)
    | _, _, _, _, _, _, _, _ => none
  | _ => none

end

/-- The fixed indentation marker of text.go. -/
def indentSeparator : Str := "  │ ".toList

theorem dropWhile_ne_tail_length_lt :
    ∀ s : Str, s.contains '\n' = true →
      ((s.dropWhile (fun c => c != '\n')).tail).length < s.length := by
  intro s
  induction s with
  | nil => intro h; simp at h
  | cons c t ih =>
    intro h
    by_cases hc : c = '\n'
    · subst hc
      simp only [List.dropWhile_cons, bne_self_eq_false, Bool.false_eq_true, if_false,
        List.tail_cons, List.length_cons]
      omega
    · have hpc : (c != '\n') = true := by simpa using hc
      simp only [List.dropWhile_cons, hpc, if_true]
      have ht : t.contains '\n' = true := by
        simp only [List.contains_cons] at h
        rcases Bool.or_eq_true_iff.mp h with h1 | h2
        · have hcn : c = '\n' := by
            first
            | exact beq_iff_eq.mp h1
            | exact (beq_iff_eq.mp h1).symm
          exact absurd hcn hc
        · exact h2
      have := ih ht
      simp only [List.length_cons]
      omega

/-- writeIndent from text.go: repeatedly split at the first newline, write
each segment escaped behind the indent marker; the final segment is
skipped when empty and gets a trailing newline only when requested. -/
def writeIndent (str indent : Str) (newline : Bool) : Str :=
  if h : str.contains '\n' then
    indent ++ escapeStringForOutput (str.takeWhile (fun c => c != '\n')) false ++
      '\n' :: writeIndent ((str.dropWhile (fun c => c != '\n')).tail) indent newline
  else if str = [] then []
  else indent ++ escapeStringForOutput str false ++ (if newline then ['\n'] else [])
termination_by str.length
decreasing_by exact dropWhile_ne_tail_length_lt str h

/-- Modelled from the spec: the Level type with its ordering (the level
definitions are not under src).  Debug through Fatal in increasing
severity, an off sentinel above every real level used only as a
threshold, and a no-level marker that is never filtered. -/
inductive Level
  | debug
  | info
  | warn
  | error
  | fatal
  | off
  | noLevel
deriving DecidableEq

/-- Numeric severity realising the spec ordering. -/
def Level.severity : Level → Nat
  | .debug => 0
  | .info => 1
  | .warn => 2
  | .error => 3
  | .fatal => 4
  | .off => 5
  | .noLevel => 6

/-- Modelled from the spec: display string of a level under the
severity-specific style (the styles source file is not under src; the
values are fixed by the spec scenario and by the unit tests, which expect
INFO and ERROR). -/
def levelStyleString : Level → Str
  | .debug => "DEBUG".toList
  | .info => "INFO".toList
  | .warn => "WARN".toList
  | .error => "ERROR".toList
  | .fatal => "FATAL".toList
  | .off => []
  | .noLevel => []

/-- Modelled from the spec: lower-case level name, standing in for the Go
String method of Level used by the default fmt display (file not under
src; no verified property depends on these exact strings). -/
def levelName : Level → Str
  | .debug => "debug".toList
  | .info => "info".toList
  | .warn => "warn".toList
  | .error => "error".toList
  | .fatal => "fatal".toList
  | .off => "off".toList
  | .noLevel => []

/-- The dynamic (interface) values that flow through the key/value
sequence: strings, time instants, levels and the nil interface value. -/
inductive Val
  | str (s : Str)
  | time (t : Nat)
  | lvl (l : Level)
  | nil
deriving DecidableEq

/-- Decimal rendering of a natural number (Go %d). -/
def natStr (n : Nat) : Str := (toString n).toList

/-- Go time.Time.Format is an external stdlib collaborator; modelled as an
executable stand-in determined by the instant (no claim under
verification depends on the concrete formatted text). -/
def goFormatTime (t : Nat) (_layout : Str) : Str := natStr t

/-- Go fmt default display (fmt.Sprint and the %+v verb) over the
modelled value universe. -/
def display : Val → Str
  | .str s => s
  | .time t => natStr t
  | .lvl l => levelName l
  | .nil => "<nil>".toList

/-- Modelled from the spec: the reserved key sentinels (the file defining
the key constants is not under src; the spec names them timestamp, level,
caller, prefix, message — only their identity and mutual distinctness
matter to the verified properties). -/
def tsKey : Val := .str "timestamp".toList

/-- Reserved key sentinel for the level field (see tsKey). -/
def lvlKey : Val := .str "level".toList

/-- Reserved key sentinel for the caller field (see tsKey). -/
def callerKey : Val := .str "caller".toList

/-- Reserved key sentinel for the prefix field (see tsKey). -/
def prefixKey : Val := .str "prefix".toList

/-- Reserved key sentinel for the message field (see tsKey). -/
def msgKey : Val := .str "message".toList

/-- The sentinel value appended for an odd-length keyvals list. -/
def missingValue : Val := .str "MISSING_VALUE".toList

/-- writeSpace from text.go: a single separating space before every field
but the first. -/
def writeSpace (firstKey : Bool) : Str := if firstKey then [] else [' ']

/-- The default (custom-key) branch of the textFormatter loop: key and
value displayed via fmt, empty value replaced by an explicit pair of
quotes, empty key skipped, multi-line values rendered as an indented
block, values with non-normal runes quoted with escaped quotes, and
normal values emitted bare (styling disabled, so every style render is
the identity). -/
def renderCustom (k v : Val) (firstKey moreKeys : Bool) : Str :=
  let key := display k
  let val := display v
  let raw := val == []
  let val := if raw then ['"', '"'] else val
  if key = [] then []
  else if val.contains '\n' then
    '\n' :: ' ' :: ' ' :: (key ++ '=' :: '\n' :: writeIndent val indentSeparator moreKeys)
  else if !raw && needsQuoting val then
    writeSpace firstKey ++ key ++ '=' :: '"' :: (escapeStringForOutput val true ++ ['"'])
  else
    writeSpace firstKey ++ key ++ '=' :: val

/-- One iteration of the textFormatter loop of text.go: the switch on the
reserved key sentinels, each with its dynamic type test, falling through
to the custom branch (styling disabled). -/
def renderPair (tf : Str) (k v : Val) (firstKey moreKeys : Bool) : Str :=
  if k = tsKey then
    match v with
    | .time t => writeSpace firstKey ++ goFormatTime t tf
    | _ => []
  else if k = lvlKey then
    match v with
    | .lvl l => writeSpace firstKey ++ levelStyleString l
    | _ => []
  else if k = callerKey then
    match v with
    | .str caller => writeSpace firstKey ++ '<' :: (caller ++ ['>'])
    | _ => []
  else if k = prefixKey then
    match v with
    | .str p => writeSpace firstKey ++ p ++ [':']
    | _ => []
  else if k = msgKey then
    if v = .nil then [] else writeSpace firstKey ++ display v
  else
    renderCustom k v firstKey moreKeys

/-- The textFormatter loop: consume the sequence two elements at a time;
an odd tail makes the source index out of range, modelled as none (the
panic unwinds before anything reaches the sink). -/
def textFmtLoop (tf : Str) : List Val → Bool → Option Str
  | [], _ => some []
  | [_], _ => none
  | k :: v :: rest, firstKey =>
    match textFmtLoop tf rest false with
    | none => none
    | some s => some (renderPair tf k v firstKey (!rest.isEmpty) ++ s)

/-- textFormatter from text.go: the loop over the sequence followed by
the terminating newline. -/
def textFormatter (tf : Str) (kvs : List Val) : Option Str :=
  (textFmtLoop tf kvs true).map (· ++ ['\n'])

/-- A captured stack frame (file, line, function identity). -/
structure Frame where
  file : Str
  line : Nat
  function : Str
deriving DecidableEq

/-- The zero Frame returned by the Go runtime when frames are
exhausted. -/
def zeroFrame : Frame := ⟨[], 0, []⟩

/-- runtime.Callers as the capability interface of the spec design notes:
the frames of the current stack, most recent first, with skip frames
dropped and at most maxStackLen = 50 frames captured. -/
def captureFrames (stack : List Frame) (skip : Nat) : List Frame :=
  (stack.drop skip).take 50

/-- The frame walk of fillLoc (part_000): return the current frame as
soon as it is not a helper or no more frames follow. -/
def fillLocLoop (helpers : List Str) : List Frame → Frame
  | [] => zeroFrame
  | [f] => f
  | f :: g :: rest =>
    if helpers.contains f.function then fillLocLoop helpers (g :: rest) else f

/-- fillLoc from part_000: capture up to 50 frames above the given skip
and walk them (the two frames of fillLoc itself and runtime.Callers are
absorbed into the stack model). -/
def fillLoc (helpers : List Str) (stack : List Frame) (skip : Nat) : Frame :=
  fillLocLoop helpers (captureFrames stack skip)

/-- sync.Map.LoadOrStore on the helper set, as used by helper
(part_000). -/
def loadOrStore (helpers : List Str) (fn : Str) : List Str :=
  if helpers.contains fn then helpers else fn :: helpers

/-- strings.LastIndexByte for the slash character. -/
def lastSlashIdx (s : Str) : Option Nat :=
  (s.reverse.findIdx? (· == '/')).map (fun i => s.length - 1 - i)

/-- trimCallerPath from part_000: keep the last two slash-separated
segments, or the whole path when fewer than two separators exist. -/
def trimCallerPath (path : Str) : Str :=
  match lastSlashIdx path with
  | none => path
  | some i =>
    match lastSlashIdx (path.take i) with
    | none => path
    | some j => path.drop (j + 1)

/-- The configuration snapshot of a logger (part_000), with the write
lock, time source and formatter selector externalised: the sink is
represented by whether it is the discard sink, the time source by the
instant it returns, and only the text formatter path is modelled (the
JSON path is out of scope per the spec).  The field named prefix in the
source is pfx here because prefix is a Lean keyword. -/
structure LoggerCfg where
  discard : Bool
  level : Level
  pfx : Str
  timeNow : Nat
  timeFormat : Str
  callerOffset : Nat
  caller : Bool
  timestamp : Bool
  keyvals : List Val
  helpers : List Str
  stack : List Frame

/-- The caller field value assembled by log when caller reporting is
enabled: the resolved location, path-trimmed, wrapped in angle
brackets. -/
def callerVal (l : LoggerCfg) : Val :=
  let fr := fillLoc l.helpers l.stack (l.callerOffset + 2)
  .str ('<' :: (trimCallerPath fr.file ++ ':' :: (natStr fr.line ++ ['>'])))

/-- The key/value sequence assembled by log (part_000) once the entry is
accepted: reserved fields in fixed order, then the bound fields, then the
per-call keyvals. -/
def assembledKvs (l : LoggerCfg) (level : Level) (msg : Val) (keyvals : List Val) : List Val :=
  (if l.timestamp then [tsKey, .time l.timeNow] else []) ++
  ((if level ≠ .noLevel then [lvlKey, .lvl level] else []) ++
  ((if l.caller then [callerKey, callerVal l] else []) ++
  ((if l.pfx ≠ [] then [prefixKey, .str l.pfx] else []) ++
  ((if msg ≠ .nil then [msgKey, .str (display msg)] else []) ++
  (l.keyvals ++ keyvals)))))

/-- Outcome of one log call: bytes written to the sink, suppressed with
nothing written, or a runtime panic (nothing written either — the panic
unwinds before the sink write). -/
inductive LogResult
  | wrote (out : Str)
  | skipped
  | panicked
deriving DecidableEq

/-- log from part_000: discard-sink short-circuit, level gate, entry
assembly, the dead padding of the local keyvals slice (appended after the
sequence was already built from it — see claim C1), and text
formatting. -/
def log (l : LoggerCfg) (level : Level) (msg : Val) (keyvals : List Val) : LogResult :=
  if l.discard then .skipped
  else if level.severity < l.level.severity then .skipped
  else
    let kvs := assembledKvs l level msg keyvals
    let _padded := if keyvals.length % 2 ≠ 0 then keyvals ++ [missingValue] else keyvals
    match textFormatter l.timeFormat kvs with
    | some out => .wrote out
    | none => .panicked

/-- A plain logger configuration: real sink, Info threshold, no prefix,
no timestamp, no caller, no bound fields (styling disabled throughout the
model). -/
def cfgPlain : LoggerCfg :=
  ⟨false, .info, [], 0, [], 0, false, false, [], [], []⟩

/-- A caller-reporting logger configuration over a three-frame stack
whose first non-helper frame is at file a/b/c.go line 7. -/
def cfgCaller : LoggerCfg :=
  ⟨false, .info, [], 0, [], 0, true, false, [], [],
    [⟨"x".toList, 1, "f0".toList⟩, ⟨"y".toList, 2, "f1".toList⟩,
     ⟨"a/b/c.go".toList, 7, "main.f".toList⟩]⟩

/-- C1: the claim says an odd per-call keyvals list gets a MISSING_VALUE
sentinel appended before formatting, making rendering total.  The source
appends the sentinel to the local slice only after the assembled sequence
was already built from it, so the formatter receives an odd-length
sequence, the sentinel never appears in it, and the call panics with an
out-of-range index instead of rendering: at threshold Info, a call at
Info with message info and the odd keyvals list [key1] assembles a
five-element sequence without any MISSING_VALUE and the call panics. -/
theorem c1_odd_keyvals_padding_is_dead_code :
    assembledKvs cfgPlain .info (.str "info".toList) [.str "key1".toList] =
      [lvlKey, .lvl .info, msgKey, .str "info".toList, .str "key1".toList] ∧
    (assembledKvs cfgPlain .info (.str "info".toList) [.str "key1".toList]).contains
      missingValue = false ∧
    log cfgPlain .info (.str "info".toList) [.str "key1".toList] = .panicked := by
  refine ⟨rfl, by decide, rfl⟩

/-- C9: scenario with styling disabled, no timestamp, no caller,
threshold Info: Info of message info with keyvals key1 val1 key2 val2
writes exactly INFO info key1=val1 key2=val2 and a newline. -/
theorem c9_scenario_info_line :
    log cfgPlain .info (.str "info".toList)
      [.str "key1".toList, .str "val1".toList, .str "key2".toList, .str "val2".toList] =
      .wrote "INFO info key1=val1 key2=val2\n".toList := by
  rfl

/-- C8: the claim says the rendered caller field is wrapped in exactly
one pair of angle brackets.  log already wraps the resolved location in
angle brackets when assembling the caller value, and the text renderer
wraps the string value in angle brackets again, so the rendered field
carries two pairs: with caller reporting on and the resolved frame at
a/b/c.go line 7, the line reads INFO followed by a doubly wrapped
b/c.go:7 (the path-trimming itself keeps the last two segments as
claimed). -/
theorem c8_caller_field_double_wrapped :
    callerVal cfgCaller = .str "<b/c.go:7>".toList ∧
    log cfgCaller .info (.str "hi".toList) [] =
      .wrote "INFO <<b/c.go:7>> hi\n".toList ∧
    trimCallerPath "a/b/c.go".toList = "b/c.go".toList ∧
    trimCallerPath "c.go".toList = "c.go".toList ∧
    trimCallerPath "b/c.go".toList = "b/c.go".toList := by
  refine ⟨rfl, rfl, by decide, by decide, by decide⟩

/-- C10: a pair whose key is a reserved sentinel but whose value has the
wrong dynamic type for that key (not a time for timestamp, not a level
for level, not a string for caller or prefix) renders to nothing: the
renderer neither formats it specially nor routes it through the generic
key=value path. -/
theorem c10_reserved_key_type_mismatch_emits_nothing
    (tf : Str) (v : Val) (firstKey moreKeys : Bool) :
    ((∀ t, v ≠ .time t) → renderPair tf tsKey v firstKey moreKeys = []) ∧
    ((∀ l, v ≠ .lvl l) → renderPair tf lvlKey v firstKey moreKeys = []) ∧
    ((∀ s, v ≠ .str s) → renderPair tf callerKey v firstKey moreKeys = []) ∧
    ((∀ s, v ≠ .str s) → renderPair tf prefixKey v firstKey moreKeys = []) := by
  refine ⟨?_, ?_, ?_, ?_⟩
  · intro hv
    unfold renderPair
    rw [if_pos rfl]
    cases v with
    | time t => exact absurd rfl (hv t)
    | _ => rfl
  · intro hv
    unfold renderPair
    rw [if_neg (by decide), if_pos rfl]
    cases v with
    | lvl l => exact absurd rfl (hv l)
    | _ => rfl
  · intro hv
    unfold renderPair
    rw [if_neg (by decide), if_neg (by decide), if_pos rfl]
    cases v with
    | str s => exact absurd rfl (hv s)
    | _ => rfl
  · intro hv
    unfold renderPair
    rw [if_neg (by decide), if_neg (by decide), if_neg (by decide), if_pos rfl]
    cases v with
    | str s => exact absurd rfl (hv s)
    | _ => rfl

/-- Witness for C10 at concrete mismatched values. -/
theorem c10_witness :
    renderPair [] tsKey (.str "x".toList) true true = [] ∧
    renderPair [] lvlKey (.str "x".toList) true true = [] ∧
    renderPair [] callerKey (.lvl .info) true true = [] ∧
    renderPair [] prefixKey (.time 3) true true = [] :=
  ⟨(c10_reserved_key_type_mismatch_emits_nothing [] (.str "x".toList) true true).1
      (fun t h => Val.noConfusion h),
   (c10_reserved_key_type_mismatch_emits_nothing [] (.str "x".toList) true true).2.1
      (fun l h => Val.noConfusion h),
   (c10_reserved_key_type_mismatch_emits_nothing [] (.lvl .info) true true).2.2.1
      (fun s h => Val.noConfusion h),
   (c10_reserved_key_type_mismatch_emits_nothing [] (.time 3) true true).2.2.2
      (fun s h => Val.noConfusion h)⟩

/-- C5: needsEscaping holds exactly when some rune is non-printable or a
double quote, and whenever it does not hold escapeStringForOutput is the
identity for either quote mode; in particular the escape is the identity
on every printable ASCII string without a quote character. -/
theorem c5_needsEscaping_iff_and_identity (s : Str) :
    (needsEscaping s = true ↔ ∃ c ∈ s, unicodeIsPrint c = false ∨ c = '"') ∧
    (needsEscaping s = false → ∀ q, escapeStringForOutput s q = s) ∧
    ((∀ c ∈ s, 0x20 ≤ c.toNat ∧ c.toNat ≤ 0x7E ∧ c ≠ '"') →
      ∀ q, escapeStringForOutput s q = s) := by
  have hid : needsEscaping s = false → ∀ q, escapeStringForOutput s q = s := by
    intro h q
    simp [escapeStringForOutput, h]
  refine ⟨?_, hid, ?_⟩
  · simp only [needsEscaping, List.any_eq_true, Bool.or_eq_true, Bool.not_eq_true',
      beq_iff_eq]
  · intro hs q
    apply hid
    simp only [needsEscaping, List.any_eq_false]
    intro c hc
    obtain ⟨h1, h2, h3⟩ := hs c hc
    have hp : unicodeIsPrint c = true := by
      simp only [unicodeIsPrint, Bool.or_eq_true, Bool.and_eq_true, decide_eq_true_eq]
      exact Or.inl (Or.inl ⟨h1, h2⟩)
    simp [hp, h3]

/-- Witness for C5 at a concrete printable ASCII string. -/
theorem c5_witness :
    needsEscaping "val1".toList = false ∧
    escapeStringForOutput "val1".toList true = "val1".toList ∧
    escapeStringForOutput "val1".toList false = "val1".toList :=
  ⟨by decide,
   (c5_needsEscaping_iff_and_identity "val1".toList).2.2 (by decide) true,
   (c5_needsEscaping_iff_and_identity "val1".toList).2.1 (by decide) false⟩

/-- Split the flat key/value sequence into consecutive pairs (a dangling
odd element is dropped; the renderer panics on it instead). -/
def pairsOf : List Val → List (Val × Val)
  | [] => []
  | [_] => []
  | k :: v :: rest => (k, v) :: pairsOf rest

/-- The per-pair decomposition of the rendered line: one fragment per
pair, in sequence order, with the first-field and more-fields flags
computed from the position. -/
def renderFragments (tf : Str) : List (Val × Val) → Bool → Str
  | [], _ => []
  | p :: ps, firstKey =>
    renderPair tf p.1 p.2 firstKey (!ps.isEmpty) ++ renderFragments tf ps false

theorem pairsOf_isEmpty_of_even (kvs : List Val) (h : kvs.length % 2 = 0) :
    (pairsOf kvs).isEmpty = kvs.isEmpty := by
  match kvs with
  | [] => rfl
  | [_] => simp at h
  | _ :: _ :: _ => rfl

theorem textFmtLoop_eq_fragments (tf : Str) :
    ∀ (n : Nat) (kvs : List Val), kvs.length ≤ n → kvs.length % 2 = 0 → ∀ first,
      textFmtLoop tf kvs first = some (renderFragments tf (pairsOf kvs) first) := by
  intro n
  induction n with
  | zero =>
    intro kvs hl _ first
    have : kvs = [] := List.length_eq_zero.mp (Nat.le_zero.mp hl)
    subst this
    rfl
  | succ n ih =>
    intro kvs hl he first
    match kvs with
    | [] => rfl
    | [_] => simp at he
    | k :: v :: rest =>
      have hr : rest.length ≤ n := by
        simp only [List.length_cons] at hl
        omega
      have her : rest.length % 2 = 0 := by
        simp only [List.length_cons] at he
        omega
      rw [textFmtLoop, ih rest hr her false]
      simp only [pairsOf, renderFragments, pairsOf_isEmpty_of_even rest her]

/-- The whole text renderer on an even sequence: the concatenation of the
per-pair fragments followed by the terminating newline. -/
theorem textFormatter_eq_fragments (tf : Str) (kvs : List Val) (h : kvs.length % 2 = 0) :
    textFormatter tf kvs =
      some (renderFragments tf (pairsOf kvs) true ++ ['\n']) := by
  unfold textFormatter
  rw [textFmtLoop_eq_fragments tf kvs.length kvs le_rfl h true]
  rfl

theorem assembledKvs_length_parity (l : LoggerCfg) (level : Level) (msg : Val)
    (kv : List Val) :
    (assembledKvs l level msg kv).length % 2 = (l.keyvals.length + kv.length) % 2 := by
  unfold assembledKvs
  simp only [List.length_append]
  split_ifs <;> simp <;> omega

theorem log_of_accepted (l : LoggerCfg) (level : Level) (msg : Val) (kv : List Val)
    (hd : l.discard = false) (hg : ¬ level.severity < l.level.severity) :
    log l level msg kv =
      match textFormatter l.timeFormat (assembledKvs l level msg kv) with
      | some out => LogResult.wrote out
      | none => LogResult.panicked := by
  unfold log
  rw [if_neg (by simp [hd]), if_neg hg]

/-- C2: a discard sink suppresses every call outright; otherwise, on
well-paired input, the entry is written exactly when its level reaches
the configured threshold; the off threshold suppresses every real level;
a no-level entry is never suppressed by the gate. -/
theorem c2_discard_and_level_gate (l : LoggerCfg) (level : Level) (msg : Val)
    (kv : List Val) :
    (l.discard = true → log l level msg kv = .skipped) ∧
    (l.discard = false → (l.keyvals.length + kv.length) % 2 = 0 →
      ((∃ out, log l level msg kv = .wrote out) ↔ l.level.severity ≤ level.severity)) ∧
    (l.discard = false → l.level = .off → level.severity < Level.off.severity →
      log l level msg kv = .skipped) ∧
    (l.discard = false → log l .noLevel msg kv ≠ .skipped) := by
  refine ⟨?_, ?_, ?_, ?_⟩
  · intro hd
    unfold log
    rw [if_pos (by simp [hd])]
  · intro hd he
    constructor
    · rintro ⟨out, hout⟩
      by_contra hlt
      rw [log, if_neg (by simp [hd]), if_pos (by omega)] at hout
      exact LogResult.noConfusion hout
    · intro hle
      have heven : (assembledKvs l level msg kv).length % 2 = 0 :=
        (assembledKvs_length_parity l level msg kv).trans he
      rw [log_of_accepted l level msg kv hd (by omega),
        textFormatter_eq_fragments l.timeFormat _ heven]
      exact ⟨_, rfl⟩
  · intro hd hoff hlt
    unfold log
    rw [if_neg (by simp [hd]), if_pos (by rw [hoff]; exact hlt)]
  · intro hd
    rw [log_of_accepted l .noLevel msg kv hd (by cases l.level <;> simp [Level.severity])]
    cases textFormatter l.timeFormat (assembledKvs l .noLevel msg kv) <;> simp

/-- Witness for C2: with a real sink at threshold Info, a Debug call is
suppressed, an Info call is written, an Error call under the off
threshold is suppressed, and a no-level call under the off threshold is
not suppressed. -/
theorem c2_witness :
    log cfgPlain .debug (.str "d".toList) [] = .skipped ∧
    (∃ out, log cfgPlain .info (.str "d".toList) [] = .wrote out) ∧
    log { cfgPlain with discard := true } .info (.str "d".toList) [] = .skipped ∧
    log { cfgPlain with level := .off } .error (.str "d".toList) [] = .skipped ∧
    log { cfgPlain with level := .off } .noLevel (.str "d".toList) [] ≠ .skipped := by
  refine ⟨by decide, ?_, ?_, ?_, ?_⟩
  · exact ((c2_discard_and_level_gate cfgPlain .info (.str "d".toList) []).2.1
      rfl (by decide)).mpr (by decide)
  · exact (c2_discard_and_level_gate { cfgPlain with discard := true } .info
      (.str "d".toList) []).1 rfl
  · exact (c2_discard_and_level_gate { cfgPlain with level := .off } .error
      (.str "d".toList) []).2.2.1 rfl rfl (by decide)
  · exact (c2_discard_and_level_gate { cfgPlain with level := .off } .noLevel
      (.str "d".toList) []).2.2.2 rfl

/-- The spec-side description of caller resolution: the first captured
frame whose function identity is not in the helper set, or the last
captured frame when every frame is a helper or no frame was captured. -/
def resolveSpec (helpers : List Str) (frames : List Frame) : Frame :=
  match frames.find? (fun f => !helpers.contains f.function) with
  | some f => f
  | none => frames.getLastD zeroFrame

theorem fillLocLoop_eq_resolveSpec (helpers : List Str) :
    ∀ frames : List Frame, fillLocLoop helpers frames = resolveSpec helpers frames := by
  intro frames
  induction frames with
  | nil => rfl
  | cons f rest ih =>
    by_cases hf : helpers.contains f.function
    · cases rest with
      | nil =>
        show f = resolveSpec helpers [f]
        rw [resolveSpec,
          @List.find?_cons_of_neg Frame (fun x : Frame => !helpers.contains x.function) f []
            (by simp only [hf, Bool.not_true]; exact Bool.false_ne_true),
          List.find?_nil]
        rfl
      | cons g rest2 =>
        rw [fillLocLoop, if_pos hf, ih, resolveSpec, resolveSpec,
          @List.find?_cons_of_neg Frame (fun x : Frame => !helpers.contains x.function) f
            (g :: rest2) (by simp only [hf, Bool.not_true]; exact Bool.false_ne_true)]
        cases hfind : List.find? (fun x : Frame => !helpers.contains x.function) (g :: rest2) with
        | some a => rfl
        | none =>
          show (g :: rest2).getLastD zeroFrame = (f :: g :: rest2).getLastD zeroFrame
          rw [List.getLastD_cons, List.getLastD_cons, List.getLastD_cons]
    · have hfb : helpers.contains f.function = false := by
        simp only [Bool.not_eq_true] at hf
        exact hf
      cases rest with
      | nil =>
        show f = resolveSpec helpers [f]
        rw [resolveSpec,
          @List.find?_cons_of_pos Frame (fun x : Frame => !helpers.contains x.function) f []
            (by simp only [hfb, Bool.not_false])]
      | cons g rest2 =>
        rw [fillLocLoop, if_neg hf, resolveSpec,
          @List.find?_cons_of_pos Frame (fun x : Frame => !helpers.contains x.function) f
            (g :: rest2) (by simp only [hfb, Bool.not_false])]

/-- C7: at most 50 frames are captured; the resolver returns the first
captured non-helper frame, or the last captured frame when every frame is
marked helper or the frames are exhausted; consequently any prefix of
helper-marked wrapper frames is skipped regardless of its depth; and
re-marking a function as helper is a no-op. -/
theorem c7_caller_resolution :
    (∀ (stack : List Frame) (skip : Nat), (captureFrames stack skip).length ≤ 50) ∧
    (∀ (helpers : List Str) (stack : List Frame) (skip : Nat),
      fillLoc helpers stack skip = resolveSpec helpers (captureFrames stack skip)) ∧
    (∀ (helpers : List Str) (pre : List Frame) (f : Frame) (rest : List Frame),
      (∀ g ∈ pre, helpers.contains g.function = true) →
      helpers.contains f.function = false →
      fillLocLoop helpers (pre ++ f :: rest) = f) ∧
    (∀ (helpers : List Str) (fn : Str),
      loadOrStore (loadOrStore helpers fn) fn = loadOrStore helpers fn) := by
  refine ⟨?_, ?_, ?_, ?_⟩
  · intro stack skip
    exact (List.length_take_le 50 (stack.drop skip)).trans (le_refl 50)
  · intro helpers stack skip
    exact fillLocLoop_eq_resolveSpec helpers (captureFrames stack skip)
  · intro helpers pre f rest hpre hf
    rw [fillLocLoop_eq_resolveSpec]
    unfold resolveSpec
    have hfind : (pre ++ f :: rest).find? (fun g => !helpers.contains g.function) = some f := by
      induction pre with
      | nil =>
        exact @List.find?_cons_of_pos Frame (fun g : Frame => !helpers.contains g.function)
          f rest (by simp only [hf, Bool.not_false])
      | cons g pre2 ih2 =>
        have hg : helpers.contains g.function = true := hpre g (by simp)
        rw [List.cons_append,
          @List.find?_cons_of_neg Frame (fun x : Frame => !helpers.contains x.function) g
            (pre2 ++ f :: rest) (by simp only [hg, Bool.not_true]; exact Bool.false_ne_true)]
        exact ih2 (fun x hx => hpre x (by simp [hx]))
    rw [hfind]
  · intro helpers fn
    by_cases hc : helpers.contains fn
    · have h1 : loadOrStore helpers fn = helpers := by rw [loadOrStore, if_pos hc]
      rw [h1]
      exact h1
    · have h1 : loadOrStore helpers fn = fn :: helpers := by rw [loadOrStore, if_neg hc]
      rw [h1, loadOrStore,
        if_pos (show ((fn :: helpers).contains fn = true) from by simp), ← h1]

/-- Witness for C7: two stacked helper-marked wrappers are skipped and
the first non-helper frame is reported; re-marking is a no-op on a
concrete set. -/
theorem c7_witness :
    fillLocLoop ["h1".toList, "h2".toList]
      [⟨"w1.go".toList, 1, "h1".toList⟩, ⟨"w2.go".toList, 2, "h2".toList⟩,
       ⟨"main.go".toList, 9, "main.main".toList⟩, ⟨"rt.go".toList, 3, "runtime.main".toList⟩] =
      ⟨"main.go".toList, 9, "main.main".toList⟩ ∧
    loadOrStore (loadOrStore [] "h1".toList) "h1".toList = loadOrStore [] "h1".toList :=
  ⟨(c7_caller_resolution).2.2.1 ["h1".toList, "h2".toList]
      [⟨"w1.go".toList, 1, "h1".toList⟩, ⟨"w2.go".toList, 2, "h2".toList⟩]
      ⟨"main.go".toList, 9, "main.main".toList⟩ [⟨"rt.go".toList, 3, "runtime.main".toList⟩]
      (by decide) (by decide),
   (c7_caller_resolution).2.2.2 [] "h1".toList⟩

theorem pairsOf_append :
    ∀ (n : Nat) (x : List Val), x.length ≤ n → x.length % 2 = 0 →
      ∀ y : List Val, pairsOf (x ++ y) = pairsOf x ++ pairsOf y := by
  intro n
  induction n with
  | zero =>
    intro x hl _ y
    have : x = [] := List.length_eq_zero.mp (Nat.le_zero.mp hl)
    subst this
    rfl
  | succ n ih =>
    intro x hl he y
    match x with
    | [] => rfl
    | [_] => simp at he
    | a :: b :: rest =>
      have hr : rest.length ≤ n := by
        simp only [List.length_cons] at hl
        omega
      have her : rest.length % 2 = 0 := by
        simp only [List.length_cons] at he
        omega
      simp only [List.cons_append, pairsOf, List.append_eq]
      rw [ih rest hr her y]

theorem pairsOf_ite_pair (c : Prop) [Decidable c] (a b : Val) :
    pairsOf (if c then [a, b] else []) = if c then [(a, b)] else [] := by
  split <;> rfl

theorem ite_pair_length_even (c : Prop) [Decidable c] (a b : Val) :
    (if c then [a, b] else []).length % 2 = 0 := by
  split <;> simp

theorem ite_singleton_sublist {α : Type} (c : Prop) [Decidable c] (p : α) :
    (if c then [p] else []).Sublist [p] := by
  split
  · exact List.Sublist.refl [p]
  · exact List.nil_sublist [p]

/-- The reserved pairs assembled by log, in their fixed order, as pairs. -/
def reservedPairs (l : LoggerCfg) (level : Level) (msg : Val) : List (Val × Val) :=
  (if l.timestamp then [(tsKey, Val.time l.timeNow)] else []) ++
  ((if level ≠ .noLevel then [(lvlKey, Val.lvl level)] else []) ++
  ((if l.caller then [(callerKey, callerVal l)] else []) ++
  ((if l.pfx ≠ [] then [(prefixKey, Val.str l.pfx)] else []) ++
  (if msg ≠ .nil then [(msgKey, Val.str (display msg))] else []))))

theorem pairsOf_assembledKvs (l : LoggerCfg) (level : Level) (msg : Val) (kv : List Val)
    (hb : l.keyvals.length % 2 = 0) :
    pairsOf (assembledKvs l level msg kv) =
      reservedPairs l level msg ++ (pairsOf l.keyvals ++ pairsOf kv) := by
  unfold assembledKvs reservedPairs
  rw [pairsOf_append _ _ le_rfl (ite_pair_length_even _ _ _),
    pairsOf_append _ _ le_rfl (ite_pair_length_even _ _ _),
    pairsOf_append _ _ le_rfl (ite_pair_length_even _ _ _),
    pairsOf_append _ _ le_rfl (ite_pair_length_even _ _ _),
    pairsOf_append _ _ le_rfl (ite_pair_length_even _ _ _),
    pairsOf_append _ _ le_rfl hb,
    pairsOf_ite_pair, pairsOf_ite_pair, pairsOf_ite_pair, pairsOf_ite_pair, pairsOf_ite_pair]
  simp only [List.append_assoc]

/-- C4: in every accepted entry, the pair sequence handed to the renderer
is the present reserved fields — a sublist of the fixed order timestamp,
level, caller, prefix, message — followed by the bound fields in binding
order, followed by the call pairs in call order; and the rendered line is
the concatenation of exactly one fragment per pair in that order,
terminated by a newline. -/
theorem c4_field_order_and_per_pair_rendering (l : LoggerCfg) (level : Level)
    (msg : Val) (kv : List Val)
    (hb : l.keyvals.length % 2 = 0) (hc : kv.length % 2 = 0) :
    pairsOf (assembledKvs l level msg kv) =
      reservedPairs l level msg ++ (pairsOf l.keyvals ++ pairsOf kv) ∧
    (reservedPairs l level msg).Sublist
      [(tsKey, Val.time l.timeNow), (lvlKey, Val.lvl level), (callerKey, callerVal l),
       (prefixKey, Val.str l.pfx), (msgKey, Val.str (display msg))] ∧
    textFormatter l.timeFormat (assembledKvs l level msg kv) =
      some (renderFragments l.timeFormat (pairsOf (assembledKvs l level msg kv)) true ++ ['\n']) := by
  refine ⟨pairsOf_assembledKvs l level msg kv hb, ?_, ?_⟩
  · exact (ite_singleton_sublist _ _).append
      ((ite_singleton_sublist _ _).append
        ((ite_singleton_sublist _ _).append
          ((ite_singleton_sublist _ _).append (ite_singleton_sublist _ _))))
  · apply textFormatter_eq_fragments
    rw [assembledKvs_length_parity]
    omega

/-- Witness for C4 at a logger with one bound pair and one call pair. -/
theorem c4_witness :
    pairsOf (assembledKvs { cfgPlain with keyvals := [.str "service".toList, .str "api".toList] }
        .info (.str "m".toList) [.str "key1".toList, .str "val1".toList]) =
      reservedPairs { cfgPlain with keyvals := [.str "service".toList, .str "api".toList] }
        .info (.str "m".toList) ++
      (pairsOf [Val.str "service".toList, Val.str "api".toList] ++
       pairsOf [Val.str "key1".toList, Val.str "val1".toList]) ∧
    textFormatter [] (assembledKvs { cfgPlain with keyvals := [.str "service".toList, .str "api".toList] }
        .info (.str "m".toList) [.str "key1".toList, .str "val1".toList]) =
      some "INFO m service=api key1=val1\n".toList :=
  ⟨(c4_field_order_and_per_pair_rendering _ .info (.str "m".toList)
      [.str "key1".toList, .str "val1".toList] (by decide) (by decide)).1,
   by decide⟩

/-- Split a string at every newline (claim-side view of the value of a
multi-line pair; a string with no newline is the single segment
[s]). -/
def splitOnNl : Str → List Str
  | [] => [[]]
  | c :: t =>
    match splitOnNl t with
    | [] => [[c]]
    | a :: r => if c = '\n' then [] :: a :: r else (c :: a) :: r

/-- Rendering of the list of segments as writeIndent produces it: every
segment but the last is emitted with the indent and a newline; an empty
last segment is skipped; a non-empty last segment gets the trailing
newline only when requested. -/
def renderSegs : List Str → Str → Bool → Str
  | [], _, _ => []
  | [last], ind, nl =>
    if last = [] then []
    else ind ++ escapeStringForOutput last false ++ (if nl then ['\n'] else [])
  | sg :: s2 :: rest, ind, nl =>
    ind ++ escapeStringForOutput sg false ++ '\n' :: renderSegs (s2 :: rest) ind nl

theorem splitOnNl_cons (c : Char) (t : Str) (a : Str) (r : List Str)
    (h : splitOnNl t = a :: r) :
    splitOnNl (c :: t) = if c = '\n' then [] :: a :: r else (c :: a) :: r := by
  rw [splitOnNl, h]

theorem splitOnNl_ne_nil (s : Str) : splitOnNl s ≠ [] := by
  induction s with
  | nil => simp [splitOnNl]
  | cons c t ih =>
    cases hsp : splitOnNl t with
    | nil => exact absurd hsp ih
    | cons a r =>
      rw [splitOnNl_cons c t a r hsp]
      by_cases hc : c = '\n'
      · rw [if_pos hc]; simp
      · rw [if_neg hc]; simp

theorem splitOnNl_of_not_contains (s : Str) (h : s.contains '\n' = false) :
    splitOnNl s = [s] := by
  induction s with
  | nil => rfl
  | cons c t ih =>
    have hc : c ≠ '\n' := by
      intro hcn
      subst hcn
      simp [List.contains_cons] at h
    have ht : t.contains '\n' = false := by
      simp only [List.contains_cons, Bool.or_eq_false_iff] at h
      exact h.2
    rw [splitOnNl_cons c t t [] (ih ht), if_neg hc]

theorem splitOnNl_of_contains (s : Str) (h : s.contains '\n' = true) :
    splitOnNl s =
      (s.takeWhile (fun c => c != '\n')) ::
        splitOnNl ((s.dropWhile (fun c => c != '\n')).tail) := by
  induction s with
  | nil => simp at h
  | cons c t ih =>
    by_cases hc : c = '\n'
    · cases hsp : splitOnNl t with
      | nil => exact absurd hsp (splitOnNl_ne_nil t)
      | cons a r =>
        rw [splitOnNl_cons c t a r hsp, if_pos hc]
        subst hc
        simp only [List.takeWhile_cons, bne_self_eq_false, Bool.false_eq_true, if_false,
          List.dropWhile_cons, List.tail_cons]
        rw [hsp]
    · have hbc : (c != '\n') = true := by simpa using hc
      have ht : t.contains '\n' = true := by
        simp only [List.contains_cons] at h
        rcases Bool.or_eq_true_iff.mp h with h1 | h2
        · have hcn : c = '\n' := by
            first
            | exact beq_iff_eq.mp h1
            | exact (beq_iff_eq.mp h1).symm
          exact absurd hcn hc
        · exact h2
      rw [splitOnNl_cons c t _ _ (ih ht), if_neg hc]
      simp only [List.takeWhile_cons, List.dropWhile_cons, hbc, if_true]

theorem writeIndent_eq_renderSegs :
    ∀ (n : Nat) (s : Str), s.length ≤ n → ∀ (ind : Str) (nl : Bool),
      writeIndent s ind nl = renderSegs (splitOnNl s) ind nl := by
  intro n
  induction n with
  | zero =>
    intro s hl ind nl
    have : s = [] := List.length_eq_zero.mp (Nat.le_zero.mp hl)
    subst this
    rw [writeIndent, dif_neg (by simp), if_pos rfl]
    rfl
  | succ n ih =>
    intro s hl ind nl
    by_cases h : s.contains '\n'
    · rw [writeIndent, dif_pos h, splitOnNl_of_contains s h]
      have htail : ((s.dropWhile (fun c => c != '\n')).tail).length ≤ n := by
        have := dropWhile_ne_tail_length_lt s h
        omega
      rw [ih _ htail ind nl]
      cases hsp : splitOnNl ((s.dropWhile (fun c => c != '\n')).tail) with
      | nil => exact absurd hsp (splitOnNl_ne_nil _)
      | cons a r => rfl
    · have hfalse : s.contains '\n' = false := by
        cases hb : s.contains '\n'
        · rfl
        · exact absurd hb h
      rw [writeIndent, dif_neg h, splitOnNl_of_not_contains s hfalse]
      by_cases hs : s = []
      · rw [if_pos hs, renderSegs, if_pos hs]
      · rw [if_neg hs, renderSegs, if_neg hs]

/-- The claim-side list of value lines of a multi-line value: the
newline-separated segments, a trailing empty segment dropped (text ending
in a newline has no extra empty line). -/
def dropTrailingEmpty (segs : List Str) : List Str :=
  if segs.getLast? = some [] then segs.dropLast else segs

theorem dropTrailingEmpty_singleton (sg : Str) :
    dropTrailingEmpty [sg] = if sg = [] then [] else [sg] := by
  have hgl : ([sg] : List Str).getLast? = some sg := rfl
  unfold dropTrailingEmpty
  rw [hgl]
  by_cases hsg : sg = []
  · subst hsg
    rw [if_pos rfl, if_pos rfl]
    rfl
  · rw [if_neg (fun hEq => hsg (Option.some.inj hEq)), if_neg hsg]

theorem dropTrailingEmpty_cons_cons (sg s2 : Str) (rest2 : List Str) :
    dropTrailingEmpty (sg :: s2 :: rest2) = sg :: dropTrailingEmpty (s2 :: rest2) := by
  have hlast : (sg :: s2 :: rest2).getLast? = (s2 :: rest2).getLast? := rfl
  have hdl : (sg :: s2 :: rest2).dropLast = sg :: (s2 :: rest2).dropLast := rfl
  unfold dropTrailingEmpty
  rw [hlast]
  by_cases hl : (s2 :: rest2).getLast? = some []
  · rw [if_pos hl, if_pos hl, hdl]
  · rw [if_neg hl, if_neg hl]

theorem renderSegs_true (ind : Str) :
    ∀ segs : List Str, segs ≠ [] →
      renderSegs segs ind true =
        strConcat ((dropTrailingEmpty segs).map
          (fun ln => ind ++ escapeStringForOutput ln false ++ ['\n'])) := by
  intro segs
  induction segs with
  | nil => intro h; exact absurd rfl h
  | cons sg rest ih =>
    intro _
    cases rest with
    | nil =>
      rw [renderSegs, dropTrailingEmpty_singleton]
      by_cases hsg : sg = []
      · rw [if_pos hsg, if_pos hsg]
        rfl
      · rw [if_neg hsg, if_neg hsg, List.map_cons, List.map_nil]
        show ind ++ escapeStringForOutput sg false ++ ['\n'] =
          (ind ++ escapeStringForOutput sg false ++ ['\n']) ++ strConcat []
        rw [strConcat, List.append_nil]
    | cons s2 rest2 =>
      rw [renderSegs, ih (by simp), dropTrailingEmpty_cons_cons, List.map_cons]
      show ind ++ escapeStringForOutput sg false ++
          '\n' :: strConcat ((dropTrailingEmpty (s2 :: rest2)).map
            (fun ln => ind ++ escapeStringForOutput ln false ++ ['\n'])) =
        strConcat ((ind ++ escapeStringForOutput sg false ++ ['\n']) ::
          (dropTrailingEmpty (s2 :: rest2)).map
            (fun ln => ind ++ escapeStringForOutput ln false ++ ['\n']))
      rw [strConcat]
      simp [List.append_assoc]

theorem renderSegs_false (ind : Str) :
    ∀ segs : List Str, segs ≠ [] →
      (segs.getLast? = some [] →
        renderSegs segs ind false =
          strConcat ((dropTrailingEmpty segs).map
            (fun ln => ind ++ escapeStringForOutput ln false ++ ['\n']))) ∧
      (segs.getLast? ≠ some [] →
        renderSegs segs ind false ++ ['\n'] =
          strConcat ((dropTrailingEmpty segs).map
            (fun ln => ind ++ escapeStringForOutput ln false ++ ['\n']))) := by
  intro segs
  induction segs with
  | nil => intro h; exact absurd rfl h
  | cons sg rest ih =>
    intro _
    cases rest with
    | nil =>
      have hgl : ([sg] : List Str).getLast? = some sg := rfl
      constructor
      · intro hl
        have hsg : sg = [] := by
          rw [hgl] at hl
          exact Option.some.inj hl
        subst hsg
        rfl
      · intro hl
        have hsg : sg ≠ [] := by
          intro h
          subst h
          exact hl hgl
        rw [renderSegs, if_neg hsg, dropTrailingEmpty_singleton, if_neg hsg,
          List.map_cons, List.map_nil]
        show (ind ++ escapeStringForOutput sg false ++ []) ++ ['\n'] =
          strConcat [ind ++ escapeStringForOutput sg false ++ ['\n']]
        rw [strConcat, strConcat, List.append_nil, List.append_nil]
    | cons s2 rest2 =>
      have hlast : (sg :: s2 :: rest2).getLast? = (s2 :: rest2).getLast? := rfl
      constructor
      · intro hl
        rw [hlast] at hl
        rw [renderSegs, (ih (by simp)).1 hl, dropTrailingEmpty_cons_cons, List.map_cons]
        rw [strConcat]
        simp [List.append_assoc]
      · intro hl
        rw [hlast] at hl
        rw [renderSegs, dropTrailingEmpty_cons_cons, List.map_cons, strConcat,
          ← (ih (by simp)).2 hl]
        simp [List.append_assoc]

/-- The value lines of a multi-line display form (see
dropTrailingEmpty). -/
def displayLines (val : Str) : List Str := dropTrailingEmpty (splitOnNl val)

/-- The indented multi-line block of the claim: line break, two spaces,
the key, the equals separator, a line break, then every value line
prefixed with the indent marker and followed by its own line break. -/
def multilineBlock (key val : Str) : Str :=
  '\n' :: ' ' :: ' ' :: (key ++ '=' :: '\n' ::
    strConcat ((displayLines val).map
      (fun ln => indentSeparator ++ escapeStringForOutput ln false ++ ['\n'])))

theorem renderPair_custom_of_not_reserved (tf : Str) (k v : Val)
    (firstKey moreKeys : Bool) (h1 : k ≠ tsKey) (h2 : k ≠ lvlKey) (h3 : k ≠ callerKey)
    (h4 : k ≠ prefixKey) (h5 : k ≠ msgKey) :
    renderPair tf k v firstKey moreKeys = renderCustom k v firstKey moreKeys := by
  unfold renderPair
  rw [if_neg h1, if_neg h2, if_neg h3, if_neg h4, if_neg h5]

/-- C3: case analysis of the generic key=value path.  For a non-reserved
pair: an empty key display skips the pair; an empty value display renders
as an explicit empty-quoted string; a value containing a newline renders
as the indented multi-line block (when the pair is the last one, the
final line break of the block is the one the renderer appends at the end
of the entry); a value with a rune outside the unquoted-safe range is
wrapped in double quotes with embedded quotes escaped; any other value is
emitted bare as key=value. -/
theorem c3_custom_pair_cases (tf : Str) (k v : Val) (firstKey moreKeys : Bool)
    (hres : k ≠ tsKey ∧ k ≠ lvlKey ∧ k ≠ callerKey ∧ k ≠ prefixKey ∧ k ≠ msgKey) :
    (display k = [] → renderPair tf k v firstKey moreKeys = []) ∧
    (display k ≠ [] → display v = [] →
      renderPair tf k v firstKey moreKeys =
        writeSpace firstKey ++ display k ++ '=' :: ['"', '"']) ∧
    (display k ≠ [] → (display v).contains '\n' = true →
      (renderPair tf k v firstKey moreKeys =
          multilineBlock (display k) (display v) ∨
        (moreKeys = false ∧
          renderPair tf k v firstKey moreKeys ++ ['\n'] =
            multilineBlock (display k) (display v)))) ∧
    (display k ≠ [] → display v ≠ [] → (display v).contains '\n' = false →
      needsQuoting (display v) = true →
      renderPair tf k v firstKey moreKeys =
        writeSpace firstKey ++ display k ++ '=' :: '"' ::
          (escapeStringForOutput (display v) true ++ ['"'])) ∧
    (display k ≠ [] → display v ≠ [] → (display v).contains '\n' = false →
      needsQuoting (display v) = false →
      renderPair tf k v firstKey moreKeys =
        writeSpace firstKey ++ display k ++ '=' :: display v) := by
  obtain ⟨h1, h2, h3, h4, h5⟩ := hres
  have hrc := renderPair_custom_of_not_reserved tf k v firstKey moreKeys h1 h2 h3 h4 h5
  refine ⟨?_, ?_, ?_, ?_, ?_⟩
  · intro hk
    rw [hrc]
    simp only [renderCustom]
    rw [hk, if_pos rfl]
  · intro hk hv
    rw [hrc]
    simp only [renderCustom]
    rw [hv, if_neg hk]
    rfl
  · intro hk hcont
    have hvne : display v ≠ [] := by
      intro h
      rw [h] at hcont
      simp at hcont
    have hraw : (display v == []) = false := by simpa using hvne
    rw [hrc]
    simp only [renderCustom]
    rw [hraw]
    simp only [Bool.false_eq_true, if_false]
    rw [if_neg hk, if_pos hcont,
      writeIndent_eq_renderSegs (display v).length (display v) le_rfl]
    cases moreKeys with
    | true =>
      rw [renderSegs_true indentSeparator _ (splitOnNl_ne_nil (display v))]
      exact Or.inl rfl
    | false =>
      by_cases hle : (splitOnNl (display v)).getLast? = some []
      · rw [(renderSegs_false indentSeparator _ (splitOnNl_ne_nil (display v))).1 hle]
        exact Or.inl rfl
      · refine Or.inr ⟨rfl, ?_⟩
        have heq2 : renderSegs (splitOnNl (display v)) indentSeparator false ++ ['\n'] =
            strConcat ((displayLines (display v)).map
              (fun ln => indentSeparator ++ escapeStringForOutput ln false ++ ['\n'])) :=
          (renderSegs_false indentSeparator _ (splitOnNl_ne_nil (display v))).2 hle
        rw [multilineBlock, ← heq2]
        simp [List.cons_append, List.append_assoc]
  · intro hk hv hcont hq
    have hraw : (display v == []) = false := by simpa using hv
    rw [hrc]
    simp only [renderCustom]
    rw [hraw]
    simp only [Bool.false_eq_true, if_false]
    rw [if_neg hk, if_neg (fun h => Bool.false_ne_true (hcont ▸ h)),
      if_pos (show (!false && needsQuoting (display v)) = true by rw [hq]; decide)]
  · intro hk hv hcont hq
    have hraw : (display v == []) = false := by simpa using hv
    rw [hrc]
    simp only [renderCustom]
    rw [hraw]
    simp only [Bool.false_eq_true, if_false]
    rw [if_neg hk, if_neg (fun h => Bool.false_ne_true (hcont ▸ h)),
      if_neg (show ¬ ((!false && needsQuoting (display v)) = true) by rw [hq]; simp)]

/-- Witness for C3: a bare pair renders as key=value behind its
separating space, and a two-line value renders as the indented block. -/
theorem c3_witness :
    renderPair [] (.str "key1".toList) (.str "val1".toList) false false =
      " key1=val1".toList ∧
    renderPair [] (.str "trace".toList) (.str "line1\nline2".toList) false true =
      multilineBlock "trace".toList "line1\nline2".toList := by
  constructor
  · rw [(c3_custom_pair_cases [] (.str "key1".toList) (.str "val1".toList) false false
      (by decide)).2.2.2.2 (by decide) (by decide) (by decide) (by decide)]
    decide
  · have h := (c3_custom_pair_cases [] (.str "trace".toList)
      (.str "line1\nline2".toList) false true (by decide)).2.2.1 (by decide) (by decide)
    exact h.resolve_right (fun hr => absurd hr.1 (by decide))

/-- A control character (Unicode category Cc: 0x00-0x1F and
0x7F-0x9F). -/
def isControlRune (c : Char) : Bool :=
  decide (c.toNat < 0x20) || decide (0x7F ≤ c.toNat ∧ c.toNat ≤ 0x9F)

/-- C6 counterexample: the escape passes a raw backslash through
unchanged, so on the string backslash-newline (which contains a control
character) the escaped output backslash-backslash-n un-escapes to
backslash-n, not to the original: the round trip fails as stated. -/
theorem c6_roundtrip_counterexample :
    isControlRune '\n' = true ∧ ('\n' ∈ (['\\', '\n'] : Str)) ∧
    escapeStringForOutput ['\\', '\n'] false = ['\\', '\\', 'n'] ∧
    unescape ['\\', '\\', 'n'] = some ['\\', 'n'] ∧
    (['\\', 'n'] : Str) ≠ ['\\', '\n'] := by
  refine ⟨by decide, by decide, by decide, by decide, by decide⟩

theorem unicodeIsPrint_of_control (c : Char) (h : isControlRune c = true) :
    unicodeIsPrint c = false := by
  simp only [isControlRune, Bool.or_eq_true, decide_eq_true_eq] at h
  simp only [unicodeIsPrint, Bool.or_eq_false_iff, Bool.and_eq_false_iff,
    decide_eq_false_iff_not]
  omega

theorem not_control_of_print (c : Char) (h : unicodeIsPrint c = true) :
    isControlRune c = false := by
  simp only [unicodeIsPrint, Bool.or_eq_true, Bool.and_eq_true, decide_eq_true_eq] at h
  simp only [isControlRune, Bool.or_eq_false_iff, decide_eq_false_iff_not]
  omega

theorem utf8ValidRune_always (r : Char) : utf8ValidRune r = true := by
  simp only [utf8ValidRune, Bool.or_eq_true, Bool.and_eq_true, decide_eq_true_eq]
  have h := r.valid
  rcases h with h | h
  · left
    exact h
  · right
    exact h

theorem unhex_hexDigit (n : Nat) (h : n < 16) : unhex (hexDigit n) = some n := by
  interval_cases n <;> decide

theorem hexDigit_not_control (n : Nat) (h : n < 16) : isControlRune (hexDigit n) = false := by
  interval_cases n <;> decide

theorem nibble_and (v : Nat) : v &&& 0xF = v % 16 := by
  have h : (0xF : Nat) = 2 ^ 4 - 1 := by norm_num
  rw [h, Nat.and_pow_two_sub_one_eq_mod]

theorem nibble_shift (v k : Nat) : v >>> k = v / 2 ^ k := by
  rw [Nat.shiftRight_eq_div_pow]

set_option maxHeartbeats 2000000 in
theorem unescape_cons_of_ne (c : Char) (t : Str) (h : c ≠ '\\') :
    unescape (c :: t) = (unescape t).map (c :: ·) := by
  rw [unescape, if_neg h]

theorem unescape_x_digits (a b : Nat) (ha : a < 16) (hb : b < 16) (t : Str) :
    unescape ('\\' :: 'x' :: hexDigit a :: hexDigit b :: t) =
      (unescape t).map (Char.ofNat (16 * a + b) :: ·) := by
  have h : unescape ('\\' :: 'x' :: hexDigit a :: hexDigit b :: t) =
      match unhex (hexDigit a), unhex (hexDigit b) with
      | some x, some y => (unescape t).map (Char.ofNat (16 * x + y) :: ·)
      | _, _ => none := rfl
  rw [h, unhex_hexDigit a ha, unhex_hexDigit b hb]

theorem unescape_u_digits (a b c d : Nat) (ha : a < 16) (hb : b < 16) (hc : c < 16)
    (hd : d < 16) (t : Str) :
    unescape ('\\' :: 'u' :: hexDigit a :: hexDigit b :: hexDigit c :: hexDigit d :: t) =
      (unescape t).map (Char.ofNat (((a * 16 + b) * 16 + c) * 16 + d) :: ·) := by
  have h : unescape ('\\' :: 'u' :: hexDigit a :: hexDigit b :: hexDigit c :: hexDigit d :: t) =
      match unhex (hexDigit a), unhex (hexDigit b), unhex (hexDigit c), unhex (hexDigit d) with
      | some x, some y, some z, some w =>
        (unescape t).map (Char.ofNat (((x * 16 + y) * 16 + z) * 16 + w) :: ·)
      | _, _, _, _ => none := rfl
  rw [h, unhex_hexDigit a ha, unhex_hexDigit b hb, unhex_hexDigit c hc, unhex_hexDigit d hd]

theorem unicodeIsPrint_false_bounds (r : Char) (hp : unicodeIsPrint r = false) :
    0x20 ≤ r.toNat → r.toNat < 0x100 := by
  simp only [unicodeIsPrint, Bool.or_eq_false_iff, Bool.and_eq_false_iff,
    decide_eq_false_iff_not] at hp
  omega

theorem unescape_escapeRune (q : Bool) (r : Char) (hbs : r ≠ '\\') (t : Str) :
    unescape (escapeRune q r ++ t) = (unescape t).map (r :: ·) := by
  simp only [escapeRune]
  by_cases hq : (q && r == '"') = true
  · rw [if_pos hq]
    have hr : r = '"' := beq_iff_eq.mp (Bool.and_eq_true_iff.mp hq).2
    subst hr
    rfl
  · rw [if_neg hq]
    by_cases hp : unicodeIsPrint r = true
    · rw [if_pos hp]
      exact unescape_cons_of_ne r t hbs
    · rw [if_neg hp]
      by_cases h07 : (r == Char.ofNat 0x07) = true
      · rw [if_pos h07]
        have hr := beq_iff_eq.mp h07
        subst hr
        rfl
      · rw [if_neg h07]
        by_cases h08 : (r == Char.ofNat 0x08) = true
        · rw [if_pos h08]
          have hr := beq_iff_eq.mp h08
          subst hr
          rfl
        · rw [if_neg h08]
          by_cases h0C : (r == Char.ofNat 0x0C) = true
          · rw [if_pos h0C]
            have hr := beq_iff_eq.mp h0C
            subst hr
            rfl
          · rw [if_neg h0C]
            by_cases h0A : (r == '\n') = true
            · rw [if_pos h0A]
              have hr := beq_iff_eq.mp h0A
              subst hr
              rfl
            · rw [if_neg h0A]
              by_cases h0D : (r == Char.ofNat 0x0D) = true
              · rw [if_pos h0D]
                have hr := beq_iff_eq.mp h0D
                subst hr
                rfl
              · rw [if_neg h0D]
                by_cases h09 : (r == '\t') = true
                · rw [if_pos h09]
                  have hr := beq_iff_eq.mp h09
                  subst hr
                  rfl
                · rw [if_neg h09]
                  by_cases h0B : (r == Char.ofNat 0x0B) = true
                  · rw [if_pos h0B]
                    have hr := beq_iff_eq.mp h0B
                    subst hr
                    rfl
                  · rw [if_neg h0B]
                    by_cases hlt : r.toNat < 0x20
                    · rw [if_pos hlt]
                      rw [show (['\\', 'x', hexDigit (r.toNat >>> 4),
                          hexDigit (r.toNat &&& 0xF)] ++ t) =
                        '\\' :: 'x' :: hexDigit (r.toNat >>> 4) ::
                          hexDigit (r.toNat &&& 0xF) :: t from rfl]
                      rw [unescape_x_digits (r.toNat >>> 4) (r.toNat &&& 0xF)
                        (by rw [nibble_shift]; omega)
                        (by rw [nibble_and]; exact Nat.mod_lt _ (by norm_num)) t]
                      have hv : 16 * (r.toNat >>> 4) + (r.toNat &&& 0xF) = r.toNat := by
                        rw [nibble_shift, nibble_and]
                        omega
                      rw [hv, Char.ofNat_toNat]
                    · rw [if_neg hlt]
                      have hval : (if utf8ValidRune r = true then r else Char.ofNat 0xFFFD) = r := by
                        rw [utf8ValidRune_always]
                        exact if_pos rfl
                      rw [hval]
                      have hlt2 : r.toNat < 0x10000 := by
                        have := unicodeIsPrint_false_bounds r
                          (by cases hb : unicodeIsPrint r
                              · rfl
                              · exact absurd hb hp) (by omega)
                        omega
                      rw [if_pos hlt2]
                      rw [show (['\\', 'u', hexDigit (r.toNat >>> 12 &&& 0xF),
                          hexDigit (r.toNat >>> 8 &&& 0xF), hexDigit (r.toNat >>> 4 &&& 0xF),
                          hexDigit (r.toNat &&& 0xF)] ++ t) =
                        '\\' :: 'u' :: hexDigit (r.toNat >>> 12 &&& 0xF) ::
                          hexDigit (r.toNat >>> 8 &&& 0xF) :: hexDigit (r.toNat >>> 4 &&& 0xF) ::
                          hexDigit (r.toNat &&& 0xF) :: t from rfl]
                      rw [unescape_u_digits _ _ _ _
                        (by rw [nibble_and]; exact Nat.mod_lt _ (by norm_num))
                        (by rw [nibble_and]; exact Nat.mod_lt _ (by norm_num))
                        (by rw [nibble_and]; exact Nat.mod_lt _ (by norm_num))
                        (by rw [nibble_and]; exact Nat.mod_lt _ (by norm_num)) t]
                      have hv : (((r.toNat >>> 12 &&& 0xF) * 16 + (r.toNat >>> 8 &&& 0xF)) * 16 +
                          (r.toNat >>> 4 &&& 0xF)) * 16 + (r.toNat &&& 0xF) = r.toNat := by
                        rw [nibble_and, nibble_and, nibble_and, nibble_and,
                          nibble_shift, nibble_shift, nibble_shift]
                        have e12 : (2 : Nat) ^ 12 = 4096 := by norm_num
                        have e8 : (2 : Nat) ^ 8 = 256 := by norm_num
                        have e4 : (2 : Nat) ^ 4 = 16 := by norm_num
                        rw [e12, e8, e4]
                        omega
                      rw [hv, Char.ofNat_toNat]

theorem mem_strConcat {c : Char} :
    ∀ L : List Str, c ∈ strConcat L ↔ ∃ s ∈ L, c ∈ s := by
  intro L
  induction L with
  | nil => simp [strConcat]
  | cons s r ih => simp [strConcat, ih, List.mem_append]

theorem escapeRune_not_control (q : Bool) (r : Char) :
    ∀ c ∈ escapeRune q r, isControlRune c = false := by
  simp only [escapeRune]
  by_cases hq : (q && r == '"') = true
  · rw [if_pos hq]
    intro c hc
    simp only [List.mem_cons, List.not_mem_nil, or_false] at hc
    rcases hc with rfl | rfl <;> decide
  · rw [if_neg hq]
    by_cases hp : unicodeIsPrint r = true
    · rw [if_pos hp]
      intro c hc
      simp only [List.mem_singleton] at hc
      subst hc
      exact not_control_of_print c hp
    · rw [if_neg hp]
      by_cases h07 : (r == Char.ofNat 0x07) = true
      · rw [if_pos h07]
        intro c hc
        simp only [List.mem_cons, List.not_mem_nil, or_false] at hc
        rcases hc with rfl | rfl <;> decide
      · rw [if_neg h07]
        by_cases h08 : (r == Char.ofNat 0x08) = true
        · rw [if_pos h08]
          intro c hc
          simp only [List.mem_cons, List.not_mem_nil, or_false] at hc
          rcases hc with rfl | rfl <;> decide
        · rw [if_neg h08]
          by_cases h0C : (r == Char.ofNat 0x0C) = true
          · rw [if_pos h0C]
            intro c hc
            simp only [List.mem_cons, List.not_mem_nil, or_false] at hc
            rcases hc with rfl | rfl <;> decide
          · rw [if_neg h0C]
            by_cases h0A : (r == '\n') = true
            · rw [if_pos h0A]
              intro c hc
              simp only [List.mem_cons, List.not_mem_nil, or_false] at hc
              rcases hc with rfl | rfl <;> decide
            · rw [if_neg h0A]
              by_cases h0D : (r == Char.ofNat 0x0D) = true
              · rw [if_pos h0D]
                intro c hc
                simp only [List.mem_cons, List.not_mem_nil, or_false] at hc
                rcases hc with rfl | rfl <;> decide
              · rw [if_neg h0D]
                by_cases h09 : (r == '\t') = true
                · rw [if_pos h09]
                  intro c hc
                  simp only [List.mem_cons, List.not_mem_nil, or_false] at hc
                  rcases hc with rfl | rfl <;> decide
                · rw [if_neg h09]
                  by_cases h0B : (r == Char.ofNat 0x0B) = true
                  · rw [if_pos h0B]
                    intro c hc
                    simp only [List.mem_cons, List.not_mem_nil, or_false] at hc
                    rcases hc with rfl | rfl <;> decide
                  · rw [if_neg h0B]
                    by_cases hlt : r.toNat < 0x20
                    · rw [if_pos hlt]
                      intro c hc
                      simp only [List.mem_cons, List.not_mem_nil, or_false] at hc
                      rcases hc with rfl | rfl | rfl | rfl
                      · decide
                      · decide
                      · exact hexDigit_not_control _ (by rw [nibble_shift]; omega)
                      · exact hexDigit_not_control _
                          (by rw [nibble_and]; exact Nat.mod_lt _ (by norm_num))
                    · rw [if_neg hlt]
                      have hval : (if utf8ValidRune r = true then r else Char.ofNat 0xFFFD) = r := by
                        rw [utf8ValidRune_always]
                        exact if_pos rfl
                      rw [hval]
                      have hlt2 : r.toNat < 0x10000 := by
                        have := unicodeIsPrint_false_bounds r
                          (by cases hb : unicodeIsPrint r
                              · rfl
                              · exact absurd hb hp) (by omega)
                        omega
                      rw [if_pos hlt2]
                      intro c hc
                      simp only [List.mem_cons, List.not_mem_nil, or_false] at hc
                      rcases hc with rfl | rfl | rfl | rfl | rfl | rfl
                      · decide
                      · decide
                      · exact hexDigit_not_control _
                          (by rw [nibble_and]; exact Nat.mod_lt _ (by norm_num))
                      · exact hexDigit_not_control _
                          (by rw [nibble_and]; exact Nat.mod_lt _ (by norm_num))
                      · exact hexDigit_not_control _
                          (by rw [nibble_and]; exact Nat.mod_lt _ (by norm_num))
                      · exact hexDigit_not_control _
                          (by rw [nibble_and]; exact Nat.mod_lt _ (by norm_num))

theorem needsEscaping_of_control (s : Str) (hctl : ∃ c ∈ s, isControlRune c = true) :
    needsEscaping s = true := by
  obtain ⟨c, hc, hctl⟩ := hctl
  simp only [needsEscaping, List.any_eq_true]
  exact ⟨c, hc, by rw [unicodeIsPrint_of_control c hctl]; rfl⟩

theorem unescape_strConcat_map (q : Bool) :
    ∀ s : Str, (∀ c ∈ s, c ≠ '\\') →
      unescape (strConcat (s.map (escapeRune q))) = some s := by
  intro s
  induction s with
  | nil => intro _; rfl
  | cons r t ih =>
    intro h
    rw [List.map_cons, strConcat,
      unescape_escapeRune q r (h r (by simp)) (strConcat (t.map (escapeRune q))),
      ih (fun c hc => h c (by simp [hc]))]
    rfl

/-- C6 amended: for every string containing a control character, the
escape output contains no raw control character; and whenever the string
contains no backslash (for either quote mode) the standard un-escaping of
the escaped output reproduces the original string.  The unrestricted
round trip of the claim fails on strings that contain a backslash
together with an escaped character (see the counterexample). -/
theorem c6_escape_no_control_and_roundtrip (s : Str) (q : Bool)
    (hctl : ∃ c ∈ s, isControlRune c = true) :
    (∀ c ∈ escapeStringForOutput s q, isControlRune c = false) ∧
    ((∀ c ∈ s, c ≠ '\\') → unescape (escapeStringForOutput s q) = some s) := by
  have hne : needsEscaping s = true := needsEscaping_of_control s hctl
  rw [escapeStringForOutput, if_pos hne]
  constructor
  · intro c hc
    obtain ⟨x, hx, hcx⟩ := (mem_strConcat _).mp hc
    obtain ⟨r, hr, rfl⟩ := List.mem_map.mp hx
    exact escapeRune_not_control q r c hcx
  · intro hbs
    exact unescape_strConcat_map q s hbs

/-- Witness for C6 at a concrete control-containing, backslash-free
string. -/
theorem c6_witness :
    (∀ c ∈ escapeStringForOutput ['a', '\n', 'b'] false, isControlRune c = false) ∧
    unescape (escapeStringForOutput ['a', '\n', 'b'] false) = some ['a', '\n', 'b'] :=
  ⟨(c6_escape_no_control_and_roundtrip ['a', '\n', 'b'] false
      ⟨'\n', by decide, by decide⟩).1,
   (c6_escape_no_control_and_roundtrip ['a', '\n', 'b'] false
      ⟨'\n', by decide, by decide⟩).2 (by decide)⟩
